import Mathlib

/-!
# Verification of the `DraftEngine` of `dda_cli.py`

Shallow embedding of the Dota draft assistant's back-end engine.
Python dictionaries are modelled as association lists that keep first-insertion
key order and overwrite values in place (`dinsert`), matching CPython `dict`
semantics.  Python `str.lower()` is modelled by `strLower` (ASCII case
mapping applied per character, the same mapping as `String.toLower`; the
catalog data is ASCII).  Python truthiness of a string (`not s`) is
`s = ""`.
-/

/-- Python `str.lower()`: lowercase every character (ASCII mapping). -/
def strLower (s : String) : String := ⟨s.data.map Char.toLower⟩

/-- The `Hero` class: name, aliases and the three relation lists. -/
structure Hero where
  name : String
  aliases : List String
  good_against : List String
  bad_against : List String
  works_well_with : List String
deriving DecidableEq, Repr

/-- `Hero.pretty_print`: human readable multi-line rendering of a hero. -/
def Hero.pretty_print (h : Hero) : String :=
  "Name: " ++ h.name ++ "\n" ++
  "Aliases: " ++ String.intercalate ", " h.aliases ++ "\n" ++
  "Good against: " ++ String.intercalate ", " h.good_against ++ "\n" ++
  "Bad against: " ++ String.intercalate ", " h.bad_against ++ "\n" ++
  "Works well with: " ++ String.intercalate ", " h.works_well_with

/-- Python `d[k] = v` on a dict modelled as an association list: update the
value in place when the key is present, otherwise append the new binding. -/
def dinsert {α : Type} (m : List (String × α)) (k : String) (v : α) :
    List (String × α) :=
  if m.any (fun p => p.1 = k) then
    m.map (fun p => if p.1 = k then (k, v) else p)
  else
    m ++ [(k, v)]

/-- `DraftEngine.__init__`, first loop: build `_hero_data`, the dict from
canonical name to hero record, in catalog order. -/
def build_hero_data (heroes : List Hero) : List (String × Hero) :=
  heroes.foldl (fun m h => dinsert m h.name h) []

/-- `DraftEngine.__init__`, second loop: build `_hero_alias_map`.  Each alias
is inserted as stored (NOT lowercased), then the hero's own lowercased name
is inserted. -/
def build_alias_map (hd : List (String × Hero)) : List (String × String) :=
  hd.foldl (fun m p =>
    dinsert (p.2.aliases.foldl (fun m' a => dinsert m' a p.1) m)
      (strLower p.1) p.1) []

/-- The immutable part of a `DraftEngine`: `_hero_data` and
`_hero_alias_map`. -/
structure Engine where
  hero_data : List (String × Hero)
  hero_alias_map : List (String × String)
deriving Repr

/-- Constructing the immutable tables of `DraftEngine.__init__`. -/
def mkEngine (heroes : List Hero) : Engine :=
  let hd := build_hero_data heroes
  ⟨hd, build_alias_map hd⟩

/-- The mutable draft state: `_bans`, `_ally_picks`, `_enemy_picks` and
`_hero_weights` (a dict from hero name to integer weight, in insertion
order). -/
structure DraftState where
  bans : List String
  ally_picks : List String
  enemy_picks : List String
  hero_weights : List (String × Int)
deriving DecidableEq, Repr

/-- `DraftEngine._max_picks`. -/
def max_picks : Nat := 5

/-- `DraftEngine.reset`: clear the three lists and re-create `_hero_weights`
with weight 0 for every hero of `_hero_data`, in catalog order. -/
def reset (e : Engine) : DraftState :=
  { bans := []
    ally_picks := []
    enemy_picks := []
    hero_weights := e.hero_data.map (fun p => (p.1, (0 : Int))) }

/-- `DraftEngine.resolve_hero_name`: lowercase the input and look it up in
the alias map, `none` when absent. -/
def resolve_hero_name (e : Engine) (a : String) : Option String :=
  List.lookup (strLower a) e.hero_alias_map

/-- `if other_hero in self._hero_weights: self._hero_weights[other_hero] += d`:
adjust the weight of `h` by `d` when present, keeping its position. -/
def bump (w : List (String × Int)) (h : String) (d : Int) :
    List (String × Int) :=
  w.map (fun p => if p.1 = h then (p.1, p.2 + d) else p)

/-- `if hero_name in self._hero_weights: del self._hero_weights[hero_name]`. -/
def delw (w : List (String × Int)) (h : String) : List (String × Int) :=
  w.filter (fun p => p.1 ≠ h)

/-- `self._hero_data[hero_name]` (total version; resolved names are always
keys of `_hero_data`, so the default is never hit on engine-built inputs). -/
def getHero (e : Engine) (n : String) : Hero :=
  (List.lookup n e.hero_data).getD ⟨n, [], [], [], []⟩

/-- `DraftEngine.ally_hero_pick`: validation pipeline, then append to
`_ally_picks`, delete from `_hero_weights`, and +1 each occurrence of a
`works_well_with` entry still present. -/
def ally_hero_pick (e : Engine) (s : DraftState) (hero_pick : String) :
    String × Bool × DraftState :=
  if hero_pick = "" then ("Hero argument required", false, s)
  else
    match resolve_hero_name e hero_pick with
    | none =>
        ("No hero name or alias found matching: " ++ hero_pick, false, s)
    | some hero_name =>
        if hero_name = "" then
          ("No hero name or alias found matching: " ++ hero_pick, false, s)
        else if max_picks ≤ s.ally_picks.length then
          ("Max ally hero picks reached", false, s)
        else if hero_name ∈ s.bans then
          ("Hero " ++ hero_name ++ " banned", false, s)
        else if hero_name ∈ s.ally_picks ∨ hero_name ∈ s.enemy_picks then
          ("Hero " ++ hero_name ++ " already picked", false, s)
        else
          let w1 := delw s.hero_weights hero_name
          let w2 := (getHero e hero_name).works_well_with.foldl
            (fun w oh => bump w oh 1) w1
          ("Ally hero pick: " ++ hero_name ++ ", hero weights updated", true,
            { s with ally_picks := s.ally_picks ++ [hero_name]
                     hero_weights := w2 })

/-- `DraftEngine.enemy_hero_pick`: validation pipeline, then append to
`_enemy_picks`, delete from `_hero_weights`, −1 per `good_against`
occurrence still present, then +1 per `bad_against` occurrence still
present. -/
def enemy_hero_pick (e : Engine) (s : DraftState) (hero_pick : String) :
    String × Bool × DraftState :=
  if hero_pick = "" then ("Hero argument required", false, s)
  else
    match resolve_hero_name e hero_pick with
    | none =>
        ("No hero name or alias found matching " ++ hero_pick, false, s)
    | some hero_name =>
        if hero_name = "" then
          ("No hero name or alias found matching " ++ hero_pick, false, s)
        else if max_picks ≤ s.enemy_picks.length then
          ("Max enemy hero picks reached", false, s)
        else if hero_name ∈ s.bans then
          ("Hero " ++ hero_name ++ " banned", false, s)
        else if hero_name ∈ s.ally_picks ∨ hero_name ∈ s.enemy_picks then
          ("Hero " ++ hero_name ++ " already picked", false, s)
        else
          let w1 := delw s.hero_weights hero_name
          let w2 := (getHero e hero_name).good_against.foldl
            (fun w oh => bump w oh (-1)) w1
          let w3 := (getHero e hero_name).bad_against.foldl
            (fun w oh => bump w oh 1) w2
          ("Enemy hero pick: " ++ hero_name ++ ", hero weights updated", true,
            { s with enemy_picks := s.enemy_picks ++ [hero_name]
                     hero_weights := w3 })

/-- `DraftEngine.ban_hero`: validation (no capacity check), then append to
`_bans` and delete from `_hero_weights`. -/
def ban_hero (e : Engine) (s : DraftState) (hero : String) :
    String × Bool × DraftState :=
  if hero = "" then ("Hero argument required", false, s)
  else
    match resolve_hero_name e hero with
    | none => ("No hero name or alias found matching " ++ hero, false, s)
    | some hero_name =>
        if hero_name = "" then
          ("No hero name or alias found matching " ++ hero, false, s)
        else if hero_name ∈ s.bans then
          ("Hero " ++ hero_name ++ " already banned", false, s)
        else if hero_name ∈ s.ally_picks ∨ hero_name ∈ s.enemy_picks then
          ("Hero " ++ hero_name ++ " already picked", false, s)
        else
          ("Hero banned: " ++ hero_name ++ ", hero weights updated", true,
            { s with bans := s.bans ++ [hero_name]
                     hero_weights := delw s.hero_weights hero_name })

/-- `DraftEngine.hero_info`: non-mutating; blank and resolution checks, then
the pretty printed record. -/
def hero_info (e : Engine) (s : DraftState) (hero : String) :
    String × Bool × DraftState :=
  if hero = "" then ("Hero argument required", false, s)
  else
    match resolve_hero_name e hero with
    | none => ("No hero name or alias found matching " ++ hero, false, s)
    | some hero_name =>
        if hero_name = "" then
          ("No hero name or alias found matching " ++ hero, false, s)
        else ((getHero e hero_name).pretty_print, true, s)

/-- A stable ascending insertion of a pair into a list sorted by weight:
walk past every entry whose weight is not greater.  `stableSortAsc` below
models Python `sorted(items, key=operator.itemgetter(1))`, which is a
stable sort ascending by the second component. -/
def insertW (w : List (String × Int)) (a : String × Int) :
    List (String × Int) :=
  match w with
  | [] => [a]
  | b :: l => if a.2 < b.2 then a :: b :: l else b :: insertW l a

/-- Stable sort of the weight pairs, ascending by weight (model of Python's
`sorted` with `key=itemgetter(1)`). -/
def stableSortAsc (w : List (String × Int)) : List (String × Int) :=
  w.foldl insertW []

/-- `DraftEngine.sorted_hero_weights`: stable ascending sort by weight,
then `[::-1]` (reversal). -/
def sorted_hero_weights (s : DraftState) : List (String × Int) :=
  (stableSortAsc s.hero_weights).reverse

/-- The mutating commands a draft session can issue (the CLI's `reset`,
`ally`, `enemy`, `ban`; `status`/`info`/`help` do not change state). -/
inductive Op where
  | reset : Op
  | ally : String → Op
  | enemy : String → Op
  | ban : String → Op
deriving DecidableEq, Repr

/-- One engine step: apply a command to the draft state. -/
def stepOp (e : Engine) (s : DraftState) (o : Op) : DraftState :=
  match o with
  | Op.reset => reset e
  | Op.ally x => (ally_hero_pick e s x).2.2
  | Op.enemy x => (enemy_hero_pick e s x).2.2
  | Op.ban x => (ban_hero e s x).2.2

/-- Run a command sequence from the freshly constructed engine
(`__init__` ends by calling `reset`). -/
def runOps (heroes : List Hero) (ops : List Op) : DraftState :=
  ops.foldl (stepOp (mkEngine heroes)) (reset (mkEngine heroes))

/-- A draft state is reachable when some command sequence produces it from
construction. -/
def Reachable (heroes : List Hero) (s : DraftState) : Prop :=
  ∃ ops : List Op, runOps heroes ops = s

/-! ## Association-list lemmas -/

theorem lookup_cons_eq {α : Type} (k : String) (v : α) (t : List (String × α)) :
    List.lookup k ((k, v) :: t) = some v := by
  simp [List.lookup_cons]

theorem lookup_cons_ne {α : Type} {h k : String} (v : α)
    (t : List (String × α)) (hne : h ≠ k) :
    List.lookup h ((k, v) :: t) = List.lookup h t := by
  have hb : (h == k) = false := by simp [hne]
  simp [List.lookup_cons, hb]

theorem bump_cons (k : String) (v : Int) (t : List (String × Int))
    (x : String) (d : Int) :
    bump ((k, v) :: t) x d =
      (if k = x then (k, v + d) else (k, v)) :: bump t x d := by
  by_cases hkx : k = x <;> simp [bump, hkx]

theorem delw_cons (k : String) (v : Int) (t : List (String × Int))
    (x : String) :
    delw ((k, v) :: t) x =
      if k = x then delw t x else (k, v) :: delw t x := by
  by_cases hkx : k = x <;> simp [delw, List.filter_cons, hkx]

theorem lookup_bump (w : List (String × Int)) (h x : String) (d : Int) :
    List.lookup h (bump w x d) =
      if h = x then (List.lookup h w).map (· + d) else List.lookup h w := by
  induction w with
  | nil => by_cases hhx : h = x <;> simp [bump, hhx]
  | cons p t ih =>
    obtain ⟨k, v⟩ := p
    rw [bump_cons]
    by_cases hkx : k = x
    · subst hkx
      rw [if_pos rfl]
      by_cases hhk : h = k
      · subst hhk
        rw [lookup_cons_eq, if_pos rfl, lookup_cons_eq]
        rfl
      · rw [lookup_cons_ne _ _ hhk, ih, if_neg hhk, if_neg hhk,
          lookup_cons_ne _ _ hhk]
    · rw [if_neg hkx]
      by_cases hhk : h = k
      · subst hhk
        rw [lookup_cons_eq, if_neg hkx, lookup_cons_eq]
      · rw [lookup_cons_ne _ _ hhk, ih, lookup_cons_ne _ _ hhk]

theorem keys_bump (w : List (String × Int)) (x : String) (d : Int) :
    (bump w x d).map (fun p => p.1) = w.map (fun p => p.1) := by
  induction w with
  | nil => rfl
  | cons p t ih =>
    obtain ⟨k, v⟩ := p
    rw [bump_cons]
    by_cases hkx : k = x <;> simp [hkx, ih]

theorem lookup_delw (w : List (String × Int)) (h x : String) :
    List.lookup h (delw w x) =
      if h = x then none else List.lookup h w := by
  induction w with
  | nil => by_cases hx : h = x <;> simp [delw, hx]
  | cons p t ih =>
    obtain ⟨k, v⟩ := p
    rw [delw_cons]
    by_cases hkx : k = x
    · subst hkx
      by_cases hhk : h = k
      · subst hhk
        rw [if_pos rfl, ih, if_pos rfl, if_pos rfl]
      · rw [if_pos rfl, ih, lookup_cons_ne _ _ hhk]
    · by_cases hhk : h = k
      · subst hhk
        rw [if_neg hkx, lookup_cons_eq, if_neg hkx, lookup_cons_eq]
      · rw [if_neg hkx, lookup_cons_ne _ _ hhk, ih,
          lookup_cons_ne _ _ hhk]

theorem keys_delw (w : List (String × Int)) (x : String) :
    (delw w x).map (fun p => p.1) =
      (w.map (fun p => p.1)).filter (fun n => n ≠ x) := by
  induction w with
  | nil => rfl
  | cons p t ih =>
    obtain ⟨k, v⟩ := p
    rw [delw_cons]
    by_cases hkx : k = x <;> simp [hkx, ih, List.filter_cons]

theorem lookup_foldl_bump (L : List String) (w : List (String × Int))
    (h : String) (d : Int) :
    List.lookup h (L.foldl (fun w' oh => bump w' oh d) w) =
      (List.lookup h w).map (fun v => v + d * L.count h) := by
  induction L generalizing w with
  | nil =>
    rcases hl : List.lookup h w with _ | v <;> simp [hl]
  | cons x t ih =>
    rw [List.foldl_cons, ih, lookup_bump]
    by_cases hhx : h = x
    · subst hhx
      rw [if_pos rfl]
      rcases hl : List.lookup h w with _ | v
      · simp
      · simp [List.count_cons]
        ring
    · rw [if_neg hhx]
      rcases hl : List.lookup h w with _ | v
      · simp
      · simp [List.count_cons, hhx]

theorem keys_foldl_bump (L : List String) (w : List (String × Int))
    (d : Int) :
    ((L.foldl (fun w' oh => bump w' oh d) w).map (fun p => p.1)) =
      w.map (fun p => p.1) := by
  induction L generalizing w with
  | nil => rfl
  | cons x t ih => rw [List.foldl_cons, ih, keys_bump]

theorem lookup_isSome_iff_mem_keys (w : List (String × Int)) (h : String) :
    (List.lookup h w).isSome = true ↔ h ∈ w.map (fun p => p.1) := by
  induction w with
  | nil => simp
  | cons p t ih =>
    obtain ⟨k, v⟩ := p
    by_cases hhk : h = k
    · subst hhk
      simp [lookup_cons_eq]
    · rw [lookup_cons_ne _ _ hhk]
      simp [ih, hhk]

theorem lookup_mem {α : Type} (m : List (String × α)) (k : String) (v : α)
    (hl : List.lookup k m = some v) : (k, v) ∈ m := by
  induction m with
  | nil => simp at hl
  | cons p t ih =>
    obtain ⟨k', v'⟩ := p
    by_cases hkk : k = k'
    · subst hkk
      rw [lookup_cons_eq] at hl
      cases hl
      exact List.mem_cons_self _ _
    · rw [lookup_cons_ne _ _ hkk] at hl
      exact List.mem_cons_of_mem _ (ih hl)

/-! ## Dictionary construction lemmas -/

theorem mem_dinsert {α : Type} (p : String × α) (m : List (String × α))
    (k : String) (v : α) (h : p ∈ dinsert m k v) : p ∈ m ∨ p = (k, v) := by
  unfold dinsert at h
  split at h
  · rcases List.mem_map.mp h with ⟨q, hq, hfq⟩
    by_cases hqk : q.1 = k
    · right
      rw [if_pos hqk] at hfq
      exact hfq.symm
    · left
      rw [if_neg hqk] at hfq
      exact hfq ▸ hq
  · rcases List.mem_append.mp h with h' | h'
    · left
      exact h'
    · right
      simpa using h'

theorem keys_dinsert {α : Type} (m : List (String × α)) (k : String) (v : α) :
    (dinsert m k v).map (fun p => p.1) =
      if k ∈ m.map (fun p => p.1) then m.map (fun p => p.1)
      else m.map (fun p => p.1) ++ [k] := by
  unfold dinsert
  by_cases hk : k ∈ m.map (fun p => p.1)
  · have hany : (m.any fun p => decide (p.1 = k)) = true := by
      rcases List.mem_map.mp hk with ⟨q, hq, hfq⟩
      exact List.any_eq_true.mpr ⟨q, hq, by simp [hfq]⟩
    rw [if_pos hany, if_pos hk, List.map_map]
    apply List.map_congr_left
    intro p _
    by_cases hp : p.1 = k <;> simp [hp]
  · have hany : (m.any fun p => decide (p.1 = k)) = false := by
      rw [List.any_eq_false]
      intro q hq
      simp only [decide_eq_true_eq]
      exact fun hc => hk (List.mem_map.mpr ⟨q, hq, hc⟩)
    rw [if_neg (by simp [hany]), if_neg hk, List.map_append]
    rfl

theorem keys_dinsert_nodup {α : Type} (m : List (String × α)) (k : String)
    (v : α) (h : (m.map (fun p => p.1)).Nodup) :
    ((dinsert m k v).map (fun p => p.1)).Nodup := by
  rw [keys_dinsert]
  by_cases hk : k ∈ m.map (fun p => p.1)
  · rwa [if_pos hk]
  · rw [if_neg hk]
    simp [List.nodup_append, h, hk]

theorem foldl_pres {β γ : Type} {P : β → Prop} (f : β → γ → β) (l : List γ)
    (hstep : ∀ b, P b → ∀ x ∈ l, P (f b x)) :
    ∀ b, P b → P (l.foldl f b) := by
  induction l with
  | nil => exact fun b hb => hb
  | cons p t ih =>
    intro b hb
    exact ih (fun b' hb' x hx => hstep b' hb' x (List.mem_cons_of_mem _ hx))
      (f b p) (hstep b hb p (List.mem_cons_self _ _))

theorem keys_build_hero_data_nodup (heroes : List Hero) :
    ((build_hero_data heroes).map (fun p => p.1)).Nodup := by
  unfold build_hero_data
  exact foldl_pres (P := fun m => (m.map (fun p => p.1)).Nodup)
    (f := fun m h => dinsert m h.name h) heroes
    (fun b hb x _ => keys_dinsert_nodup b x.name x hb) [] (by simp)

theorem mem_foldl_dinsert_val {P : String → Prop} (L : List String)
    (u : String) (m : List (String × String)) (hm : ∀ q ∈ m, P q.2)
    (hu : P u) : ∀ q ∈ L.foldl (fun m' a => dinsert m' a u) m, P q.2 := by
  induction L generalizing m with
  | nil => exact hm
  | cons a t ih =>
    intro q hq
    refine ih (dinsert m a u) (fun r hr => ?_) q hq
    rcases mem_dinsert r m a u hr with h | h
    · exact hm r h
    · rw [h]
      exact hu

theorem alias_map_value_mem (hd : List (String × Hero)) :
    ∀ q ∈ build_alias_map hd, q.2 ∈ hd.map (fun p => p.1) := by
  unfold build_alias_map
  refine foldl_pres
    (P := fun m => ∀ q ∈ m, q.2 ∈ hd.map (fun p => p.1))
    (f := fun m p =>
      dinsert (p.2.aliases.foldl (fun m' a => dinsert m' a p.1) m)
        (strLower p.1) p.1) hd
    ?_ [] (by simp)
  intro m hm x hx q hq
  rcases mem_dinsert q _ _ _ hq with h1 | h1
  · exact mem_foldl_dinsert_val (P := fun n => n ∈ hd.map (fun p => p.1))
      x.2.aliases x.1 m hm (List.mem_map.mpr ⟨x, hx, rfl⟩) q h1
  · rw [h1]
    exact List.mem_map.mpr ⟨x, hx, rfl⟩

theorem resolve_value_mem (heroes : List Hero) (x n : String)
    (h : resolve_hero_name (mkEngine heroes) x = some n) :
    n ∈ (mkEngine heroes).hero_data.map (fun p => p.1) := by
  unfold resolve_hero_name at h
  have hm := lookup_mem _ _ _ h
  simp only [mkEngine] at hm ⊢
  exact alias_map_value_mem _ _ hm

/-! ## Operation case analysis -/

theorem ally_cases (e : Engine) (s : DraftState) (x : String) :
    ((ally_hero_pick e s x).2.1 = false ∧ (ally_hero_pick e s x).2.2 = s) ∨
    (∃ n, resolve_hero_name e x = some n ∧ n ≠ "" ∧ x ≠ "" ∧
      s.ally_picks.length < max_picks ∧ n ∉ s.bans ∧ n ∉ s.ally_picks ∧
      n ∉ s.enemy_picks ∧
      ally_hero_pick e s x =
        ("Ally hero pick: " ++ n ++ ", hero weights updated", true,
          { s with ally_picks := s.ally_picks ++ [n]
                   hero_weights :=
                     (getHero e n).works_well_with.foldl
                       (fun w oh => bump w oh 1)
                       (delw s.hero_weights n) })) := by
  unfold ally_hero_pick
  by_cases h1 : x = ""
  · left
    simp [h1]
  rcases hres : resolve_hero_name e x with _ | n
  · left
    simp [h1, hres]
  by_cases h2 : n = ""
  · left
    simp [h1, hres, h2]
  by_cases h3 : max_picks ≤ s.ally_picks.length
  · left
    simp [h1, hres, h2, h3]
  by_cases h4 : n ∈ s.bans
  · left
    simp [h1, hres, h2, h3, h4]
  by_cases h5 : n ∈ s.ally_picks ∨ n ∈ s.enemy_picks
  · left
    simp [h1, hres, h2, h3, h4, h5]
  · right
    refine ⟨n, rfl, h2, h1, Nat.lt_of_not_le h3, h4,
      fun hc => h5 (Or.inl hc), fun hc => h5 (Or.inr hc), ?_⟩
    simp [h1, hres, h2, h3, h4, h5]

theorem enemy_cases (e : Engine) (s : DraftState) (x : String) :
    ((enemy_hero_pick e s x).2.1 = false ∧ (enemy_hero_pick e s x).2.2 = s) ∨
    (∃ n, resolve_hero_name e x = some n ∧ n ≠ "" ∧ x ≠ "" ∧
      s.enemy_picks.length < max_picks ∧ n ∉ s.bans ∧ n ∉ s.ally_picks ∧
      n ∉ s.enemy_picks ∧
      enemy_hero_pick e s x =
        ("Enemy hero pick: " ++ n ++ ", hero weights updated", true,
          { s with enemy_picks := s.enemy_picks ++ [n]
                   hero_weights :=
                     (getHero e n).bad_against.foldl
                       (fun w oh => bump w oh 1)
                       ((getHero e n).good_against.foldl
                         (fun w oh => bump w oh (-1))
                         (delw s.hero_weights n)) })) := by
  unfold enemy_hero_pick
  by_cases h1 : x = ""
  · left
    simp [h1]
  rcases hres : resolve_hero_name e x with _ | n
  · left
    simp [h1, hres]
  by_cases h2 : n = ""
  · left
    simp [h1, hres, h2]
  by_cases h3 : max_picks ≤ s.enemy_picks.length
  · left
    simp [h1, hres, h2, h3]
  by_cases h4 : n ∈ s.bans
  · left
    simp [h1, hres, h2, h3, h4]
  by_cases h5 : n ∈ s.ally_picks ∨ n ∈ s.enemy_picks
  · left
    simp [h1, hres, h2, h3, h4, h5]
  · right
    refine ⟨n, rfl, h2, h1, Nat.lt_of_not_le h3, h4,
      fun hc => h5 (Or.inl hc), fun hc => h5 (Or.inr hc), ?_⟩
    simp [h1, hres, h2, h3, h4, h5]

theorem ban_cases (e : Engine) (s : DraftState) (x : String) :
    ((ban_hero e s x).2.1 = false ∧ (ban_hero e s x).2.2 = s) ∨
    (∃ n, resolve_hero_name e x = some n ∧ n ≠ "" ∧ x ≠ "" ∧
      n ∉ s.bans ∧ n ∉ s.ally_picks ∧ n ∉ s.enemy_picks ∧
      ban_hero e s x =
        ("Hero banned: " ++ n ++ ", hero weights updated", true,
          { s with bans := s.bans ++ [n]
                   hero_weights := delw s.hero_weights n })) := by
  unfold ban_hero
  by_cases h1 : x = ""
  · left
    simp [h1]
  rcases hres : resolve_hero_name e x with _ | n
  · left
    simp [h1, hres]
  by_cases h2 : n = ""
  · left
    simp [h1, hres, h2]
  by_cases h4 : n ∈ s.bans
  · left
    simp [h1, hres, h2, h4]
  by_cases h5 : n ∈ s.ally_picks ∨ n ∈ s.enemy_picks
  · left
    simp [h1, hres, h2, h4, h5]
  · right
    refine ⟨n, rfl, h2, h1, h4,
      fun hc => h5 (Or.inl hc), fun hc => h5 (Or.inr hc), ?_⟩
    simp [h1, hres, h2, h4, h5]

theorem hero_info_state (e : Engine) (s : DraftState) (x : String) :
    (hero_info e s x).2.2 = s := by
  unfold hero_info
  by_cases h1 : x = ""
  · simp [h1]
  rcases hres : resolve_hero_name e x with _ | n
  · simp [h1, hres]
  by_cases h2 : n = ""
  · simp [h1, hres, h2]
  · simp [h1, hres, h2]

theorem ally_fail_state (e : Engine) (s : DraftState) (x : String)
    (h : (ally_hero_pick e s x).2.1 = false) :
    (ally_hero_pick e s x).2.2 = s := by
  rcases ally_cases e s x with ⟨_, hs⟩ | ⟨n, _, _, _, _, _, _, _, heq⟩
  · exact hs
  · rw [heq] at h
    simp at h

theorem enemy_fail_state (e : Engine) (s : DraftState) (x : String)
    (h : (enemy_hero_pick e s x).2.1 = false) :
    (enemy_hero_pick e s x).2.2 = s := by
  rcases enemy_cases e s x with ⟨_, hs⟩ | ⟨n, _, _, _, _, _, _, _, heq⟩
  · exact hs
  · rw [heq] at h
    simp at h

theorem ban_fail_state (e : Engine) (s : DraftState) (x : String)
    (h : (ban_hero e s x).2.1 = false) :
    (ban_hero e s x).2.2 = s := by
  rcases ban_cases e s x with ⟨_, hs⟩ | ⟨n, _, _, _, _, _, _, heq⟩
  · exact hs
  · rw [heq] at h
    simp at h

/-! ## The draft-state invariant -/

/-- Well-formed resolution: the alias map only resolves to catalog keys.
Holds for every engine built by `mkEngine`. -/
def EngineWF (e : Engine) : Prop :=
  ∀ x n, resolve_hero_name e x = some n →
    n ∈ e.hero_data.map (fun p => p.1)

theorem mkEngine_wf (heroes : List Hero) : EngineWF (mkEngine heroes) :=
  fun x n h => resolve_value_mem heroes x n h

/-- The state invariant: the three name lists are duplicate-free and
pairwise disjoint, `hero_weights` lists exactly the unremoved catalog
heroes in catalog order, both pick lists respect the cap, and all recorded
names are catalog names. -/
structure DraftInv (e : Engine) (s : DraftState) : Prop where
  bans_nodup : s.bans.Nodup
  ally_nodup : s.ally_picks.Nodup
  enemy_nodup : s.enemy_picks.Nodup
  bans_ally : ∀ n ∈ s.bans, n ∉ s.ally_picks
  bans_enemy : ∀ n ∈ s.bans, n ∉ s.enemy_picks
  ally_enemy : ∀ n ∈ s.ally_picks, n ∉ s.enemy_picks
  keys_eq : s.hero_weights.map (fun p => p.1) =
    (e.hero_data.map (fun p => p.1)).filter
      (fun n => ¬ (n ∈ s.bans ∨ n ∈ s.ally_picks ∨ n ∈ s.enemy_picks))
  ally_le : s.ally_picks.length ≤ max_picks
  enemy_le : s.enemy_picks.length ≤ max_picks
  bans_sub : ∀ n ∈ s.bans, n ∈ e.hero_data.map (fun p => p.1)
  ally_sub : ∀ n ∈ s.ally_picks, n ∈ e.hero_data.map (fun p => p.1)
  enemy_sub : ∀ n ∈ s.enemy_picks, n ∈ e.hero_data.map (fun p => p.1)

theorem draftInv_reset (e : Engine) : DraftInv e (reset e) := by
  refine ⟨List.nodup_nil, List.nodup_nil, List.nodup_nil, ?_, ?_, ?_, ?_,
    ?_, ?_, ?_, ?_, ?_⟩ <;> simp [reset, List.map_map]

theorem draftInv_ally (e : Engine) (s : DraftState) (x : String)
    (hwf : EngineWF e) (hInv : DraftInv e s) :
    DraftInv e (ally_hero_pick e s x).2.2 := by
  rcases ally_cases e s x with ⟨_, hs⟩ | ⟨n, hres, _, _, hlen, hb, ha, he, heq⟩
  · rwa [hs]
  rw [heq]
  have hsub := hwf x n hres
  refine ⟨hInv.bans_nodup, ?_, hInv.enemy_nodup, ?_, hInv.bans_enemy, ?_,
    ?_, ?_, hInv.enemy_le, hInv.bans_sub, ?_, hInv.enemy_sub⟩
  · simp [List.nodup_append, hInv.ally_nodup, ha]
  · intro m hm
    simp only [List.mem_append, List.mem_singleton]
    rintro (hma | rfl)
    · exact hInv.bans_ally m hm hma
    · exact hb hm
  · intro m hm
    rcases List.mem_append.mp hm with hma | hmn
    · exact hInv.ally_enemy m hma
    · rw [List.mem_singleton.mp hmn]
      exact he
  · show ((getHero e n).works_well_with.foldl (fun w oh => bump w oh 1)
        (delw s.hero_weights n)).map (fun p => p.1) = _
    rw [keys_foldl_bump, keys_delw, hInv.keys_eq, List.filter_filter]
    apply List.filter_congr
    intro a _
    by_cases h1 : a ∈ s.bans <;> by_cases h2 : a ∈ s.ally_picks <;>
      by_cases h3 : a ∈ s.enemy_picks <;> by_cases h4 : a = n <;>
      simp [h1, h2, h3, h4]
  · simpa using hlen
  · intro m hm
    rcases List.mem_append.mp hm with hma | hmn
    · exact hInv.ally_sub m hma
    · rw [List.mem_singleton.mp hmn]
      exact hsub

theorem draftInv_enemy (e : Engine) (s : DraftState) (x : String)
    (hwf : EngineWF e) (hInv : DraftInv e s) :
    DraftInv e (enemy_hero_pick e s x).2.2 := by
  rcases enemy_cases e s x with ⟨_, hs⟩ | ⟨n, hres, _, _, hlen, hb, ha, he, heq⟩
  · rwa [hs]
  rw [heq]
  have hsub := hwf x n hres
  refine ⟨hInv.bans_nodup, hInv.ally_nodup, ?_, hInv.bans_ally, ?_, ?_,
    ?_, hInv.ally_le, ?_, hInv.bans_sub, hInv.ally_sub, ?_⟩
  · simp [List.nodup_append, hInv.enemy_nodup, he]
  · intro m hm
    simp only [List.mem_append, List.mem_singleton]
    rintro (hma | rfl)
    · exact hInv.bans_enemy m hm hma
    · exact hb hm
  · intro m hm
    simp only [List.mem_append, List.mem_singleton]
    rintro (hma | rfl)
    · exact hInv.ally_enemy m hm hma
    · exact ha hm
  · show ((getHero e n).bad_against.foldl (fun w oh => bump w oh 1)
        ((getHero e n).good_against.foldl (fun w oh => bump w oh (-1))
          (delw s.hero_weights n))).map (fun p => p.1) = _
    rw [keys_foldl_bump, keys_foldl_bump, keys_delw, hInv.keys_eq,
      List.filter_filter]
    apply List.filter_congr
    intro a _
    by_cases h1 : a ∈ s.bans <;> by_cases h2 : a ∈ s.ally_picks <;>
      by_cases h3 : a ∈ s.enemy_picks <;> by_cases h4 : a = n <;>
      simp [h1, h2, h3, h4]
  · simpa using hlen
  · intro m hm
    rcases List.mem_append.mp hm with hma | hmn
    · exact hInv.enemy_sub m hma
    · rw [List.mem_singleton.mp hmn]
      exact hsub

theorem draftInv_ban (e : Engine) (s : DraftState) (x : String)
    (hwf : EngineWF e) (hInv : DraftInv e s) :
    DraftInv e (ban_hero e s x).2.2 := by
  rcases ban_cases e s x with ⟨_, hs⟩ | ⟨n, hres, _, _, hb, ha, he, heq⟩
  · rwa [hs]
  rw [heq]
  have hsub := hwf x n hres
  refine ⟨?_, hInv.ally_nodup, hInv.enemy_nodup, ?_, ?_, hInv.ally_enemy,
    ?_, hInv.ally_le, hInv.enemy_le, ?_, hInv.ally_sub, hInv.enemy_sub⟩
  · simp [List.nodup_append, hInv.bans_nodup, hb]
  · intro m hm
    rcases List.mem_append.mp hm with hma | hmn
    · exact hInv.bans_ally m hma
    · rw [List.mem_singleton.mp hmn]
      exact ha
  · intro m hm
    rcases List.mem_append.mp hm with hma | hmn
    · exact hInv.bans_enemy m hma
    · rw [List.mem_singleton.mp hmn]
      exact he
  · show (delw s.hero_weights n).map (fun p => p.1) = _
    rw [keys_delw, hInv.keys_eq, List.filter_filter]
    apply List.filter_congr
    intro a _
    by_cases h1 : a ∈ s.bans <;> by_cases h2 : a ∈ s.ally_picks <;>
      by_cases h3 : a ∈ s.enemy_picks <;> by_cases h4 : a = n <;>
      simp [h1, h2, h3, h4]
  · intro m hm
    rcases List.mem_append.mp hm with hma | hmn
    · exact hInv.bans_sub m hma
    · rw [List.mem_singleton.mp hmn]
      exact hsub

theorem draftInv_step (e : Engine) (s : DraftState) (o : Op)
    (hwf : EngineWF e) (hInv : DraftInv e s) : DraftInv e (stepOp e s o) := by
  cases o with
  | reset => exact draftInv_reset e
  | ally x => exact draftInv_ally e s x hwf hInv
  | enemy x => exact draftInv_enemy e s x hwf hInv
  | ban x => exact draftInv_ban e s x hwf hInv

theorem draftInv_runOps (heroes : List Hero) (ops : List Op) :
    DraftInv (mkEngine heroes) (runOps heroes ops) := by
  unfold runOps
  refine foldl_pres (P := fun s => DraftInv (mkEngine heroes) s)
    (f := stepOp (mkEngine heroes)) ops ?_ _ (draftInv_reset _)
  intro s hs o _
  exact draftInv_step _ s o (mkEngine_wf heroes) hs

theorem draftInv_reachable (heroes : List Hero) (s : DraftState)
    (h : Reachable heroes s) : DraftInv (mkEngine heroes) s := by
  rcases h with ⟨ops, hops⟩
  rw [← hops]
  exact draftInv_runOps heroes ops

/-! ## Sorting lemmas -/

theorem insertW_eq (w : List (String × Int)) (a : String × Int) :
    insertW w a =
      w.takeWhile (fun b => b.2 ≤ a.2) ++
        a :: w.dropWhile (fun b => b.2 ≤ a.2) := by
  induction w with
  | nil => rfl
  | cons b t ih =>
    by_cases h : a.2 < b.2
    · have hb : ¬ b.2 ≤ a.2 := not_le.mpr h
      simp [insertW, h, hb]
    · have hb : b.2 ≤ a.2 := le_of_not_lt h
      simp [insertW, h, hb, ih]

theorem insertW_perm (w : List (String × Int)) (a : String × Int) :
    (insertW w a).Perm (a :: w) := by
  rw [insertW_eq]
  have h : (w.takeWhile (fun b => b.2 ≤ a.2) ++
        a :: w.dropWhile (fun b => b.2 ≤ a.2)).Perm
      (a :: (w.takeWhile (fun b => b.2 ≤ a.2) ++
        w.dropWhile (fun b => b.2 ≤ a.2))) := List.perm_middle
  rwa [List.takeWhile_append_dropWhile] at h

theorem sorted_insertW (w : List (String × Int)) (a : String × Int)
    (h : w.Pairwise (fun p q => p.2 ≤ q.2)) :
    (insertW w a).Pairwise (fun p q => p.2 ≤ q.2) := by
  induction w with
  | nil => simp [insertW]
  | cons b t ih =>
    rcases List.pairwise_cons.mp h with ⟨hb, ht⟩
    by_cases hab : a.2 < b.2
    · rw [show insertW (b :: t) a = a :: b :: t by simp [insertW, hab]]
      refine List.pairwise_cons.mpr ⟨?_, h⟩
      intro q hq
      rcases List.mem_cons.mp hq with rfl | hq'
      · exact le_of_lt hab
      · exact le_trans (le_of_lt hab) (hb q hq')
    · rw [show insertW (b :: t) a = b :: insertW t a by simp [insertW, hab]]
      refine List.pairwise_cons.mpr ⟨?_, ih ht⟩
      intro q hq
      rcases List.mem_cons.mp ((insertW_perm t a).mem_iff.mp hq)
        with rfl | hq'
      · exact le_of_not_lt hab
      · exact hb q hq'

theorem sorted_stableSortAsc (w : List (String × Int)) :
    (stableSortAsc w).Pairwise (fun p q => p.2 ≤ q.2) := by
  unfold stableSortAsc
  exact foldl_pres (P := fun acc => acc.Pairwise (fun p q => p.2 ≤ q.2))
    (f := insertW) w (fun b hb x _ => sorted_insertW b x hb) [] (by simp)

theorem perm_stableSortAsc (w : List (String × Int)) :
    (stableSortAsc w).Perm w := by
  unfold stableSortAsc
  suffices H : ∀ acc : List (String × Int),
      (w.foldl insertW acc).Perm (acc ++ w) by
    simpa using H []
  induction w with
  | nil => intro acc; simp
  | cons a t ih =>
    intro acc
    refine (ih (insertW acc a)).trans ?_
    refine ((insertW_perm acc a).append_right t).trans ?_
    exact List.perm_middle.symm

theorem filter_insertW (w : List (String × Int)) (a : String × Int) (c : Int)
    (hs : w.Pairwise (fun p q => p.2 ≤ q.2)) :
    (insertW w a).filter (fun p => p.2 = c) =
      if a.2 = c then w.filter (fun p => p.2 = c) ++ [a]
      else w.filter (fun p => p.2 = c) := by
  induction w with
  | nil => by_cases hac : a.2 = c <;> simp [insertW, hac]
  | cons b t ih =>
    rcases List.pairwise_cons.mp hs with ⟨hb, ht⟩
    by_cases hab : a.2 < b.2
    · rw [show insertW (b :: t) a = a :: b :: t by simp [insertW, hab]]
      have hnil : (b :: t).filter (fun p => p.2 = c) = [] ∨ ¬ a.2 = c := by
        by_cases hac : a.2 = c
        · left
          rw [List.filter_eq_nil_iff]
          intro q hq
          have hbq : b.2 ≤ q.2 := by
            rcases List.mem_cons.mp hq with rfl | hq'
            · exact le_refl _
            · exact hb q hq'
          simp only [decide_eq_true_eq]
          intro hqc
          rw [← hac] at hqc
          exact absurd (lt_of_lt_of_le hab hbq) (by rw [hqc]; exact lt_irrefl _)
        · right
          exact hac
      by_cases hac : a.2 = c
      · rcases hnil with hnil | hnac
        · rw [if_pos hac, hnil, List.filter_cons_of_pos (by simp [hac]), hnil]
          rfl
        · exact absurd hac hnac
      · rw [if_neg hac, List.filter_cons_of_neg (by simp [hac])]
    · rw [show insertW (b :: t) a = b :: insertW t a by simp [insertW, hab]]
      by_cases hbc : b.2 = c <;> by_cases hac : a.2 = c <;>
        simp [List.filter_cons, hbc, hac, ih ht]

theorem filter_stableSortAsc (w : List (String × Int)) (c : Int) :
    (stableSortAsc w).filter (fun p => p.2 = c) =
      w.filter (fun p => p.2 = c) := by
  unfold stableSortAsc
  suffices H : ∀ acc : List (String × Int),
      acc.Pairwise (fun p q => p.2 ≤ q.2) →
      (w.foldl insertW acc).filter (fun p => p.2 = c) =
        acc.filter (fun p => p.2 = c) ++ w.filter (fun p => p.2 = c) by
    simpa using H [] (by simp)
  induction w with
  | nil =>
    intro acc _
    simp
  | cons a t ih =>
    intro acc hacc
    rw [List.foldl_cons, ih _ (sorted_insertW acc a hacc),
      filter_insertW acc a c hacc]
    by_cases hac : a.2 = c <;> simp [List.filter_cons, hac]

/-! ## Per-operation weight change -/

theorem ally_pick_detail (e : Engine) (s : DraftState) (x n : String)
    (hsucc : (ally_hero_pick e s x).2.1 = true)
    (hres : resolve_hero_name e x = some n) :
    (ally_hero_pick e s x).2.2.bans = s.bans ∧
    (ally_hero_pick e s x).2.2.ally_picks = s.ally_picks ++ [n] ∧
    (ally_hero_pick e s x).2.2.enemy_picks = s.enemy_picks ∧
    List.lookup n (ally_hero_pick e s x).2.2.hero_weights = none ∧
    ∀ h, h ≠ n →
      List.lookup h (ally_hero_pick e s x).2.2.hero_weights =
        (List.lookup h s.hero_weights).map
          (fun v => v + 1 * ((getHero e n).works_well_with.count h : Int)) := by
  rcases ally_cases e s x with ⟨hf, _⟩ | ⟨m, hresm, _, _, _, _, _, _, heq⟩
  · rw [hf] at hsucc
    exact absurd hsucc (by simp)
  · have hmn : m = n := Option.some.inj (hresm.symm.trans hres)
    subst hmn
    rw [heq]
    dsimp only
    refine ⟨rfl, rfl, rfl, ?_, ?_⟩
    · rw [lookup_foldl_bump, lookup_delw, if_pos rfl]
      rfl
    · intro h hhn
      rw [lookup_foldl_bump, lookup_delw, if_neg hhn]

theorem enemy_pick_detail (e : Engine) (s : DraftState) (x n : String)
    (hsucc : (enemy_hero_pick e s x).2.1 = true)
    (hres : resolve_hero_name e x = some n) :
    (enemy_hero_pick e s x).2.2.bans = s.bans ∧
    (enemy_hero_pick e s x).2.2.ally_picks = s.ally_picks ∧
    (enemy_hero_pick e s x).2.2.enemy_picks = s.enemy_picks ++ [n] ∧
    List.lookup n (enemy_hero_pick e s x).2.2.hero_weights = none ∧
    ∀ h, h ≠ n →
      List.lookup h (enemy_hero_pick e s x).2.2.hero_weights =
        (List.lookup h s.hero_weights).map
          (fun v => v + (-1) * ((getHero e n).good_against.count h : Int)
            + 1 * ((getHero e n).bad_against.count h : Int)) := by
  rcases enemy_cases e s x with ⟨hf, _⟩ | ⟨m, hresm, _, _, _, _, _, _, heq⟩
  · rw [hf] at hsucc
    exact absurd hsucc (by simp)
  · have hmn : m = n := Option.some.inj (hresm.symm.trans hres)
    subst hmn
    rw [heq]
    dsimp only
    refine ⟨rfl, rfl, rfl, ?_, ?_⟩
    · rw [lookup_foldl_bump, lookup_foldl_bump, lookup_delw, if_pos rfl]
      rfl
    · intro h hhn
      rw [lookup_foldl_bump, lookup_foldl_bump, lookup_delw, if_neg hhn,
        Option.map_map]
      rfl

theorem ban_detail (e : Engine) (s : DraftState) (x n : String)
    (hsucc : (ban_hero e s x).2.1 = true)
    (hres : resolve_hero_name e x = some n) :
    (ban_hero e s x).2.2.bans = s.bans ++ [n] ∧
    (ban_hero e s x).2.2.ally_picks = s.ally_picks ∧
    (ban_hero e s x).2.2.enemy_picks = s.enemy_picks ∧
    List.lookup n (ban_hero e s x).2.2.hero_weights = none ∧
    ∀ h, h ≠ n →
      List.lookup h (ban_hero e s x).2.2.hero_weights =
        List.lookup h s.hero_weights := by
  rcases ban_cases e s x with ⟨hf, _⟩ | ⟨m, hresm, _, _, _, _, _, heq⟩
  · rw [hf] at hsucc
    exact absurd hsucc (by simp)
  · have hmn : m = n := Option.some.inj (hresm.symm.trans hres)
    subst hmn
    rw [heq]
    dsimp only
    refine ⟨rfl, rfl, rfl, ?_, ?_⟩
    · rw [lookup_delw, if_pos rfl]
    · intro h hhn
      rw [lookup_delw, if_neg hhn]

/-! ## Concrete fixtures used by witnesses and counterexamples -/

def hA : Hero := ⟨"A", [], [], [], ["B"]⟩
def hB : Hero := ⟨"B", [], [], [], []⟩
def hC : Hero := ⟨"C", ["trip"], ["B"], ["A"], []⟩
def egABC : Engine := mkEngine [hA, hB, hC]
def s0ABC : DraftState := reset egABC

/-! ## Claim theorems -/

theorem lookup_map_zero (l : List (String × Hero)) (n : String)
    (h : n ∈ l.map (fun p => p.1)) :
    List.lookup n (l.map (fun p => (p.1, (0 : Int)))) = some 0 := by
  induction l with
  | nil => simp at h
  | cons p t ih =>
    by_cases hnp : n = p.1
    · rw [List.map_cons, hnp, lookup_cons_eq]
    · rw [List.map_cons, lookup_cons_ne _ _ hnp]
      apply ih
      rcases List.mem_map.mp h with ⟨q, hq, hfq⟩
      rcases List.mem_cons.mp hq with rfl | hq'
      · exact absurd hfq.symm hnp
      · exact List.mem_map.mpr ⟨q, hq', hfq⟩

/-- C7: `reset()` (from any reachable state) restores exactly the state of a
freshly constructed engine: empty bans and pick lists, and weight 0 for
every catalog hero. -/
theorem C7_reset_restores_fresh_state (heroes : List Hero) (ops : List Op)
    (n : String)
    (hmem : n ∈ (mkEngine heroes).hero_data.map (fun p => p.1)) :
    runOps heroes (ops ++ [Op.reset]) = reset (mkEngine heroes) ∧
    reset (mkEngine heroes) = runOps heroes [] ∧
    (reset (mkEngine heroes)).bans = [] ∧
    (reset (mkEngine heroes)).ally_picks = [] ∧
    (reset (mkEngine heroes)).enemy_picks = [] ∧
    List.lookup n (reset (mkEngine heroes)).hero_weights = some 0 := by
  refine ⟨?_, rfl, rfl, rfl, rfl, ?_⟩
  · unfold runOps
    rw [List.foldl_append]
    rfl
  · exact lookup_map_zero _ n hmem

theorem C7_witness :
    runOps [hA, hB, hC] ([Op.ban "a"] ++ [Op.reset]) =
      reset (mkEngine [hA, hB, hC]) ∧
    reset (mkEngine [hA, hB, hC]) = runOps [hA, hB, hC] [] ∧
    (reset (mkEngine [hA, hB, hC])).bans = [] ∧
    (reset (mkEngine [hA, hB, hC])).ally_picks = [] ∧
    (reset (mkEngine [hA, hB, hC])).enemy_picks = [] ∧
    List.lookup "B" (reset (mkEngine [hA, hB, hC])).hero_weights = some 0 :=
  C7_reset_restores_fresh_state [hA, hB, hC] [Op.ban "a"] "B" (by decide)

/-- C6: whenever a mutating operation reports `success = false`, the draft
state is returned unchanged. -/
theorem C6_failed_op_leaves_state_unchanged (e : Engine) (s : DraftState)
    (x : String) :
    ((ally_hero_pick e s x).2.1 = false → (ally_hero_pick e s x).2.2 = s) ∧
    ((enemy_hero_pick e s x).2.1 = false → (enemy_hero_pick e s x).2.2 = s) ∧
    ((ban_hero e s x).2.1 = false → (ban_hero e s x).2.2 = s) :=
  ⟨ally_fail_state e s x, enemy_fail_state e s x, ban_fail_state e s x⟩

theorem C6_witness :
    (ally_hero_pick egABC s0ABC "zzz").2.2 = s0ABC ∧
    (enemy_hero_pick egABC s0ABC "zzz").2.2 = s0ABC ∧
    (ban_hero egABC s0ABC "zzz").2.2 = s0ABC :=
  ⟨(C6_failed_op_leaves_state_unchanged egABC s0ABC "zzz").1 (by decide),
   (C6_failed_op_leaves_state_unchanged egABC s0ABC "zzz").2.1 (by decide),
   (C6_failed_op_leaves_state_unchanged egABC s0ABC "zzz").2.2 (by decide)⟩

/-- C8 counterexample: a whitespace-only (non-empty) input is NOT caught by
the blank-input check (Python `not s` is false for `" "`); `hero_info`
reports an alias-resolution failure instead of `argument required`, and so
do the three mutating operations. -/
theorem C8_counterexample :
    (hero_info egABC s0ABC " ").1 ≠ "Hero argument required" ∧
    (ally_hero_pick egABC s0ABC " ").1 ≠ "Hero argument required" ∧
    (enemy_hero_pick egABC s0ABC " ").1 ≠ "Hero argument required" ∧
    (ban_hero egABC s0ABC " ").1 ≠ "Hero argument required" ∧
    (hero_info egABC s0ABC " ").1 =
      "No hero name or alias found matching  " := by
  refine ⟨?_, ?_, ?_, ?_, ?_⟩ <;> decide

/-- C8 amended: only the EMPTY string is rejected with `argument required`
(before alias resolution); a whitespace-only input passes the blank check
and fails at alias resolution instead (when its lowercase form is not a
registered alias key). -/
theorem C8_blank_check_is_empty_only (e : Engine) (s : DraftState) :
    ally_hero_pick e s "" = ("Hero argument required", false, s) ∧
    enemy_hero_pick e s "" = ("Hero argument required", false, s) ∧
    ban_hero e s "" = ("Hero argument required", false, s) ∧
    hero_info e s "" = ("Hero argument required", false, s) ∧
    (∀ x : String, x ≠ "" → resolve_hero_name e x = none →
      ally_hero_pick e s x =
        ("No hero name or alias found matching: " ++ x, false, s) ∧
      enemy_hero_pick e s x =
        ("No hero name or alias found matching " ++ x, false, s) ∧
      ban_hero e s x =
        ("No hero name or alias found matching " ++ x, false, s) ∧
      hero_info e s x =
        ("No hero name or alias found matching " ++ x, false, s)) := by
  refine ⟨rfl, rfl, rfl, rfl, ?_⟩
  intro x hx hres
  unfold ally_hero_pick enemy_hero_pick ban_hero hero_info
  simp [hx, hres]

theorem C8_witness :
    ally_hero_pick egABC s0ABC " " =
      ("No hero name or alias found matching: " ++ " ", false, s0ABC) ∧
    enemy_hero_pick egABC s0ABC " " =
      ("No hero name or alias found matching " ++ " ", false, s0ABC) ∧
    ban_hero egABC s0ABC " " =
      ("No hero name or alias found matching " ++ " ", false, s0ABC) ∧
    hero_info egABC s0ABC " " =
      ("No hero name or alias found matching " ++ " ", false, s0ABC) :=
  (C8_blank_check_is_empty_only egABC s0ABC).2.2.2.2 " " (by decide)
    (by decide)

/-- C4: a successful ally pick appends the hero to `ally_picks`, removes it
from `hero_weights`, adds exactly +1 to every distinct `works_well_with`
hero still present, leaves every other weight unchanged, and the effect of
two successive ally picks is additive (+2 on a shared synergy partner). -/
theorem C4_ally_pick_updates (e : Engine) (s : DraftState) (x n : String)
    (hsucc : (ally_hero_pick e s x).2.1 = true)
    (hres : resolve_hero_name e x = some n)
    (hnd : (getHero e n).works_well_with.Nodup) :
    (ally_hero_pick e s x).2.2.ally_picks = s.ally_picks ++ [n] ∧
    List.lookup n (ally_hero_pick e s x).2.2.hero_weights = none ∧
    (∀ h, h ≠ n → h ∈ (getHero e n).works_well_with →
      List.lookup h (ally_hero_pick e s x).2.2.hero_weights =
        (List.lookup h s.hero_weights).map (fun v => v + 1)) ∧
    (∀ h, h ≠ n → h ∉ (getHero e n).works_well_with →
      List.lookup h (ally_hero_pick e s x).2.2.hero_weights =
        List.lookup h s.hero_weights) ∧
    (∀ y m, (ally_hero_pick e (ally_hero_pick e s x).2.2 y).2.1 = true →
      resolve_hero_name e y = some m →
      (getHero e m).works_well_with.Nodup →
      ∀ h, h ≠ n → h ≠ m → h ∈ (getHero e n).works_well_with →
        h ∈ (getHero e m).works_well_with →
        List.lookup h
            (ally_hero_pick e
              (ally_hero_pick e s x).2.2 y).2.2.hero_weights =
          (List.lookup h s.hero_weights).map (fun v => v + 2)) := by
  obtain ⟨-, hap, -, hnone, hwt⟩ := ally_pick_detail e s x n hsucc hres
  refine ⟨hap, hnone, ?_, ?_, ?_⟩
  · intro h hhn hmem
    rw [hwt h hhn, List.count_eq_one_of_mem hnd hmem]
    rcases hl : List.lookup h s.hero_weights with _ | v <;> simp [hl]
  · intro h hhn hmem
    rw [hwt h hhn, List.count_eq_zero_of_not_mem hmem]
    rcases hl : List.lookup h s.hero_weights with _ | v <;> simp [hl]
  · intro y m hsucc2 hres2 hnd2 h hhn hhm hmem1 hmem2
    obtain ⟨-, -, -, -, hwt2⟩ := ally_pick_detail e _ y m hsucc2 hres2
    rw [hwt2 h hhm, hwt h hhn, Option.map_map,
      List.count_eq_one_of_mem hnd hmem1,
      List.count_eq_one_of_mem hnd2 hmem2]
    rcases hl : List.lookup h s.hero_weights with _ | v
    · simp [hl]
    · simp [hl]

theorem C4_witness :
    (ally_hero_pick egABC s0ABC "a").2.2.ally_picks =
      s0ABC.ally_picks ++ ["A"] ∧
    List.lookup "B" (ally_hero_pick egABC s0ABC "a").2.2.hero_weights =
      (List.lookup "B" s0ABC.hero_weights).map (fun v => v + 1) :=
  ⟨(C4_ally_pick_updates egABC s0ABC "a" "A" (by decide) (by decide)
      (by decide)).1,
   (C4_ally_pick_updates egABC s0ABC "a" "A" (by decide) (by decide)
      (by decide)).2.2.1 "B" (by decide) (by decide)⟩

/-- C3: a successful enemy pick appends the hero to `enemy_picks`, removes
it from `hero_weights`, and for every other hero still tracked: −1 if it is
only in the pick's `good_against`, +1 if only in `bad_against`, unchanged
if in both or in neither. -/
theorem C3_enemy_pick_updates (e : Engine) (s : DraftState) (x n : String)
    (hsucc : (enemy_hero_pick e s x).2.1 = true)
    (hres : resolve_hero_name e x = some n)
    (hndg : (getHero e n).good_against.Nodup)
    (hndb : (getHero e n).bad_against.Nodup) :
    (enemy_hero_pick e s x).2.2.enemy_picks = s.enemy_picks ++ [n] ∧
    List.lookup n (enemy_hero_pick e s x).2.2.hero_weights = none ∧
    (∀ h, h ≠ n → h ∈ (getHero e n).good_against →
      h ∉ (getHero e n).bad_against →
      List.lookup h (enemy_hero_pick e s x).2.2.hero_weights =
        (List.lookup h s.hero_weights).map (fun v => v - 1)) ∧
    (∀ h, h ≠ n → h ∉ (getHero e n).good_against →
      h ∈ (getHero e n).bad_against →
      List.lookup h (enemy_hero_pick e s x).2.2.hero_weights =
        (List.lookup h s.hero_weights).map (fun v => v + 1)) ∧
    (∀ h, h ≠ n → h ∈ (getHero e n).good_against →
      h ∈ (getHero e n).bad_against →
      List.lookup h (enemy_hero_pick e s x).2.2.hero_weights =
        List.lookup h s.hero_weights) ∧
    (∀ h, h ≠ n → h ∉ (getHero e n).good_against →
      h ∉ (getHero e n).bad_against →
      List.lookup h (enemy_hero_pick e s x).2.2.hero_weights =
        List.lookup h s.hero_weights) := by
  obtain ⟨-, -, hep, hnone, hwt⟩ := enemy_pick_detail e s x n hsucc hres
  refine ⟨hep, hnone, ?_, ?_, ?_, ?_⟩
  · intro h hhn hg hb
    rw [hwt h hhn, List.count_eq_one_of_mem hndg hg,
      List.count_eq_zero_of_not_mem hb]
    rcases hl : List.lookup h s.hero_weights with _ | v
    · simp [hl]
    · simp [hl]
      omega
  · intro h hhn hg hb
    rw [hwt h hhn, List.count_eq_zero_of_not_mem hg,
      List.count_eq_one_of_mem hndb hb]
    rcases hl : List.lookup h s.hero_weights with _ | v <;> simp [hl]
  · intro h hhn hg hb
    rw [hwt h hhn, List.count_eq_one_of_mem hndg hg,
      List.count_eq_one_of_mem hndb hb]
    rcases hl : List.lookup h s.hero_weights with _ | v <;> simp [hl]
  · intro h hhn hg hb
    rw [hwt h hhn, List.count_eq_zero_of_not_mem hg,
      List.count_eq_zero_of_not_mem hb]
    rcases hl : List.lookup h s.hero_weights with _ | v <;> simp [hl]

theorem C3_witness :
    (enemy_hero_pick egABC s0ABC "trip").2.2.enemy_picks =
      s0ABC.enemy_picks ++ ["C"] ∧
    List.lookup "B" (enemy_hero_pick egABC s0ABC "trip").2.2.hero_weights =
      (List.lookup "B" s0ABC.hero_weights).map (fun v => v - 1) :=
  ⟨(C3_enemy_pick_updates egABC s0ABC "trip" "C" (by decide) (by decide)
      (by decide) (by decide)).1,
   (C3_enemy_pick_updates egABC s0ABC "trip" "C" (by decide) (by decide)
      (by decide) (by decide)).2.2.1 "B" (by decide) (by decide)
      (by decide)⟩

/-- C10: weight adjustments are applied once per OCCURRENCE in the relation
lists: after a successful pick, a hero's weight changes by the occurrence
count of its name in the relevant list(s), not by at most 1. -/
theorem C10_adjustment_per_occurrence (e : Engine) (s : DraftState)
    (x n : String) (hres : resolve_hero_name e x = some n) :
    ((ally_hero_pick e s x).2.1 = true →
      ∀ h, h ≠ n →
        List.lookup h (ally_hero_pick e s x).2.2.hero_weights =
          (List.lookup h s.hero_weights).map
            (fun v => v + ((getHero e n).works_well_with.count h : Int))) ∧
    ((enemy_hero_pick e s x).2.1 = true →
      ∀ h, h ≠ n →
        List.lookup h (enemy_hero_pick e s x).2.2.hero_weights =
          (List.lookup h s.hero_weights).map
            (fun v => v - ((getHero e n).good_against.count h : Int)
              + ((getHero e n).bad_against.count h : Int))) := by
  constructor
  · intro hsucc h hhn
    obtain ⟨-, -, -, -, hwt⟩ := ally_pick_detail e s x n hsucc hres
    rw [hwt h hhn]
    rcases hl : List.lookup h s.hero_weights with _ | v <;> simp [hl]
  · intro hsucc h hhn
    obtain ⟨-, -, -, -, hwt⟩ := enemy_pick_detail e s x n hsucc hres
    rw [hwt h hhn]
    rcases hl : List.lookup h s.hero_weights with _ | v
    · simp [hl]
    · simp [hl]
      omega

def hD : Hero := ⟨"D", [], ["E", "E"], [], ["E", "E"]⟩
def hE : Hero := ⟨"E", [], [], [], []⟩
def egDE : Engine := mkEngine [hD, hE]
def s0DE : DraftState := reset egDE

theorem C10_witness :
    (getHero egDE "D").works_well_with.count "E" = 2 ∧
    List.lookup "E" (ally_hero_pick egDE s0DE "d").2.2.hero_weights =
      (List.lookup "E" s0DE.hero_weights).map
        (fun v => v + ((getHero egDE "D").works_well_with.count "E" : Int)) ∧
    List.lookup "E" (ally_hero_pick egDE s0DE "d").2.2.hero_weights =
      some 2 :=
  ⟨by decide,
   (C10_adjustment_per_occurrence egDE s0DE "d" "D" (by decide)).1
     (by decide) "E" (by decide),
   by decide⟩

/-- C5: in every reachable draft state, a hero name is in at most one of
the three lists, `hero_weights` tracks exactly the catalog heroes not yet
picked or banned, and each pick list has at most 5 entries. -/
theorem C5_reachable_state_invariants (heroes : List Hero) (s : DraftState)
    (h : Reachable heroes s) :
    (∀ n ∈ s.bans, n ∉ s.ally_picks ∧ n ∉ s.enemy_picks) ∧
    (∀ n ∈ s.ally_picks, n ∉ s.enemy_picks) ∧
    (∀ n, (List.lookup n s.hero_weights).isSome = true ↔
      (n ∈ (mkEngine heroes).hero_data.map (fun p => p.1) ∧
        n ∉ s.bans ∧ n ∉ s.ally_picks ∧ n ∉ s.enemy_picks)) ∧
    s.ally_picks.length ≤ 5 ∧ s.enemy_picks.length ≤ 5 := by
  have hI := draftInv_reachable heroes s h
  refine ⟨fun n hn => ⟨hI.bans_ally n hn, hI.bans_enemy n hn⟩,
    hI.ally_enemy, ?_, hI.ally_le, hI.enemy_le⟩
  intro n
  rw [lookup_isSome_iff_mem_keys, hI.keys_eq, List.mem_filter]
  simp [not_or, and_assoc]

theorem C5_witness :
    (∀ n ∈ (runOps [hA, hB, hC] [Op.ban "a"]).bans,
      n ∉ (runOps [hA, hB, hC] [Op.ban "a"]).ally_picks ∧
      n ∉ (runOps [hA, hB, hC] [Op.ban "a"]).enemy_picks) ∧
    (∀ n ∈ (runOps [hA, hB, hC] [Op.ban "a"]).ally_picks,
      n ∉ (runOps [hA, hB, hC] [Op.ban "a"]).enemy_picks) ∧
    (∀ n, (List.lookup n
        (runOps [hA, hB, hC] [Op.ban "a"]).hero_weights).isSome = true ↔
      (n ∈ (mkEngine [hA, hB, hC]).hero_data.map (fun p => p.1) ∧
        n ∉ (runOps [hA, hB, hC] [Op.ban "a"]).bans ∧
        n ∉ (runOps [hA, hB, hC] [Op.ban "a"]).ally_picks ∧
        n ∉ (runOps [hA, hB, hC] [Op.ban "a"]).enemy_picks)) ∧
    (runOps [hA, hB, hC] [Op.ban "a"]).ally_picks.length ≤ 5 ∧
    (runOps [hA, hB, hC] [Op.ban "a"]).enemy_picks.length ≤ 5 :=
  C5_reachable_state_invariants [hA, hB, hC]
    (runOps [hA, hB, hC] [Op.ban "a"]) ⟨[Op.ban "a"], rfl⟩

/-! ## C9: entry counts of the status display -/

theorem length_filter_add_length_filter_not {α : Type} (l : List α)
    (p : α → Prop) [DecidablePred p] :
    (l.filter (fun a => p a)).length +
      (l.filter (fun a => ¬ p a)).length = l.length := by
  induction l with
  | nil => rfl
  | cons a t ih =>
    simp only [List.filter_cons, decide_not] at ih ⊢
    by_cases h : p a <;> simp [h] <;> omega

theorem length_filter_mem (keys L : List String)
    (hknd : keys.Nodup) (hLnd : L.Nodup) (hsub : ∀ a ∈ L, a ∈ keys) :
    (keys.filter (fun n => n ∈ L)).length = L.length := by
  have hnd1 : (keys.filter (fun n => n ∈ L)).Nodup := hknd.filter _
  have hperm : (keys.filter (fun n => n ∈ L)).Perm L := by
    rw [List.perm_ext_iff_of_nodup hnd1 hLnd]
    intro a
    simp only [List.mem_filter, decide_eq_true_eq]
    exact ⟨fun hx => hx.2, fun h2 => ⟨hsub a h2, h2⟩⟩
  exact hperm.length_eq

def heroesFifteen : List Hero :=
  [⟨"HA", [], [], [], []⟩, ⟨"HB", [], [], [], []⟩, ⟨"HC", [], [], [], []⟩,
   ⟨"HD", [], [], [], []⟩, ⟨"HE", [], [], [], []⟩, ⟨"HF", [], [], [], []⟩,
   ⟨"HG", [], [], [], []⟩, ⟨"HH", [], [], [], []⟩, ⟨"HI", [], [], [], []⟩,
   ⟨"HJ", [], [], [], []⟩, ⟨"HK", [], [], [], []⟩, ⟨"HL", [], [], [], []⟩,
   ⟨"HM", [], [], [], []⟩, ⟨"HN", [], [], [], []⟩, ⟨"HO", [], [], [], []⟩]

/-- C9 counterexample: a 15-hero catalog with a single ban is reachable and
leaves only 14 entries in `sorted_hero_weights()`, so the `num_heroes >= 15`
display assertion does not hold in every reachable state. -/
theorem C9_counterexample :
    (mkEngine heroesFifteen).hero_data.length = 15 ∧
    Reachable heroesFifteen (runOps heroesFifteen [Op.ban "ha"]) ∧
    (sorted_hero_weights (runOps heroesFifteen [Op.ban "ha"])).length =
      14 :=
  ⟨by decide, ⟨[Op.ban "ha"], rfl⟩, by decide⟩

/-- C9 amended: in every reachable state `sorted_hero_weights()` has
exactly (catalog size − bans − ally picks − enemy picks) entries; the
display assertions hold exactly when that number is at least 15, which a
catalog of at least 15 heroes guarantees only while nothing has been
picked or banned. -/
theorem C9_weight_entry_count (heroes : List Hero) (s : DraftState)
    (h : Reachable heroes s) :
    (sorted_hero_weights s).length +
        (s.bans.length + s.ally_picks.length + s.enemy_picks.length) =
      (mkEngine heroes).hero_data.length ∧
    (15 + s.bans.length + s.ally_picks.length + s.enemy_picks.length ≤
        (mkEngine heroes).hero_data.length →
      15 ≤ (sorted_hero_weights s).length) := by
  have hI := draftInv_reachable heroes s h
  have hkeysnd : ((mkEngine heroes).hero_data.map (fun p => p.1)).Nodup := by
    simpa [mkEngine] using keys_build_hero_data_nodup heroes
  have hlen1 : (sorted_hero_weights s).length = s.hero_weights.length := by
    unfold sorted_hero_weights
    rw [List.length_reverse, (perm_stableSortAsc _).length_eq]
  have hlen2 : s.hero_weights.length =
      (((mkEngine heroes).hero_data.map (fun p => p.1)).filter
        (fun n => ¬ (n ∈ s.bans ∨ n ∈ s.ally_picks ∨
          n ∈ s.enemy_picks))).length := by
    rw [← List.length_map s.hero_weights (fun p => p.1), hI.keys_eq]
  have hLnd : (s.bans ++ s.ally_picks ++ s.enemy_picks).Nodup := by
    rw [List.nodup_append, List.nodup_append]
    refine ⟨⟨hI.bans_nodup, hI.ally_nodup, ?_⟩, hI.enemy_nodup, ?_⟩
    · intro a ha ha2
      exact hI.bans_ally a ha ha2
    · intro a ha
      rcases List.mem_append.mp ha with hab | haa
      · exact hI.bans_enemy a hab
      · exact hI.ally_enemy a haa
  have hsub : ∀ a ∈ s.bans ++ s.ally_picks ++ s.enemy_picks,
      a ∈ (mkEngine heroes).hero_data.map (fun p => p.1) := by
    intro a ha
    rcases List.mem_append.mp ha with hab | hae
    · rcases List.mem_append.mp hab with h1 | h2
      · exact hI.bans_sub a h1
      · exact hI.ally_sub a h2
    · exact hI.enemy_sub a hae
  have hfc : (((mkEngine heroes).hero_data.map (fun p => p.1)).filter
        (fun n => (n ∈ s.bans ∨ n ∈ s.ally_picks ∨ n ∈ s.enemy_picks))) =
      (((mkEngine heroes).hero_data.map (fun p => p.1)).filter
        (fun n => n ∈ s.bans ++ s.ally_picks ++ s.enemy_picks)) := by
    apply List.filter_congr
    intro a _
    simp [List.mem_append, or_assoc]
  have hcount := length_filter_mem
    ((mkEngine heroes).hero_data.map (fun p => p.1))
    (s.bans ++ s.ally_picks ++ s.enemy_picks) hkeysnd hLnd hsub
  have hsum := length_filter_add_length_filter_not
    ((mkEngine heroes).hero_data.map (fun p => p.1))
    (fun n => (n ∈ s.bans ∨ n ∈ s.ally_picks ∨ n ∈ s.enemy_picks))
  rw [hfc, hcount] at hsum
  have hkeyslen : ((mkEngine heroes).hero_data.map (fun p => p.1)).length =
      (mkEngine heroes).hero_data.length := List.length_map _ _
  rw [hkeyslen] at hsum
  simp only [List.length_append] at hsum
  constructor
  · rw [hlen1, hlen2]
    omega
  · intro hge
    rw [hlen1, hlen2]
    omega

theorem C9_witness :
    (sorted_hero_weights (runOps heroesFifteen [Op.ban "ha"])).length +
        ((runOps heroesFifteen [Op.ban "ha"]).bans.length +
          (runOps heroesFifteen [Op.ban "ha"]).ally_picks.length +
          (runOps heroesFifteen [Op.ban "ha"]).enemy_picks.length) =
      (mkEngine heroesFifteen).hero_data.length ∧
    (15 + (runOps heroesFifteen [Op.ban "ha"]).bans.length +
        (runOps heroesFifteen [Op.ban "ha"]).ally_picks.length +
        (runOps heroesFifteen [Op.ban "ha"]).enemy_picks.length ≤
        (mkEngine heroesFifteen).hero_data.length →
      15 ≤ (sorted_hero_weights
        (runOps heroesFifteen [Op.ban "ha"])).length) :=
  C9_weight_entry_count heroesFifteen (runOps heroesFifteen [Op.ban "ha"])
    ⟨[Op.ban "ha"], rfl⟩

/-- C1 counterexample: in the reachable initial state of the catalog
[A, B, C] all weights are equal and `hero_weights` lists the heroes in
catalog insertion order A, B, C, but `sorted_hero_weights()` returns them
as C, B, A — equal-weight heroes appear in REVERSED insertion order, not
in insertion order (ascending stable sort followed by reversal). -/
theorem C1_counterexample :
    Reachable [hA, hB, hC] s0ABC ∧
    s0ABC.hero_weights = [("A", 0), ("B", 0), ("C", 0)] ∧
    sorted_hero_weights s0ABC = [("C", 0), ("B", 0), ("A", 0)] :=
  ⟨⟨[], rfl⟩, by decide, by decide⟩

/-- C1 amended: in every reachable state `sorted_hero_weights()` returns a
permutation of the remaining (name, weight) pairs, ordered descending by
weight, and any two remaining heroes with EQUAL weight appear in the
REVERSE of their relative insertion order (the weight map itself lists the
remaining heroes in catalog-load order). -/
theorem C1_sorted_hero_weights_order (heroes : List Hero) (s : DraftState)
    (h : Reachable heroes s) :
    (sorted_hero_weights s).Perm s.hero_weights ∧
    (sorted_hero_weights s).Pairwise (fun p q => q.2 ≤ p.2) ∧
    (∀ c : Int, (sorted_hero_weights s).filter (fun p => p.2 = c) =
      (s.hero_weights.filter (fun p => p.2 = c)).reverse) ∧
    s.hero_weights.map (fun p => p.1) =
      ((mkEngine heroes).hero_data.map (fun p => p.1)).filter
        (fun n => ¬ (n ∈ s.bans ∨ n ∈ s.ally_picks ∨
          n ∈ s.enemy_picks)) := by
  refine ⟨?_, ?_, ?_, (draftInv_reachable heroes s h).keys_eq⟩
  · exact (List.reverse_perm _).trans (perm_stableSortAsc _)
  · unfold sorted_hero_weights
    rw [List.pairwise_reverse]
    exact sorted_stableSortAsc _
  · intro c
    unfold sorted_hero_weights
    rw [List.filter_reverse, filter_stableSortAsc]

theorem C1_witness :
    (sorted_hero_weights s0ABC).Perm s0ABC.hero_weights ∧
    (sorted_hero_weights s0ABC).Pairwise (fun p q => q.2 ≤ p.2) ∧
    (∀ c : Int, (sorted_hero_weights s0ABC).filter (fun p => p.2 = c) =
      (s0ABC.hero_weights.filter (fun p => p.2 = c)).reverse) ∧
    s0ABC.hero_weights.map (fun p => p.1) =
      ((mkEngine [hA, hB, hC]).hero_data.map (fun p => p.1)).filter
        (fun n => ¬ (n ∈ s0ABC.bans ∨ n ∈ s0ABC.ally_picks ∨
          n ∈ s0ABC.enemy_picks)) :=
  C1_sorted_hero_weights_order [hA, hB, hC] s0ABC ⟨[], rfl⟩

/-! ## C2: alias resolution -/

theorem lookup_eq_none_of_not_mem_keys {α : Type} (m : List (String × α))
    (a : String) (h : a ∉ m.map (fun p => p.1)) : List.lookup a m = none := by
  induction m with
  | nil => rfl
  | cons p t ih =>
    obtain ⟨k, v⟩ := p
    simp only [List.map_cons, List.mem_cons, not_or] at h
    rw [lookup_cons_ne _ _ h.1]
    exact ih h.2

theorem lookup_append {α : Type} (m l : List (String × α)) (a : String) :
    List.lookup a (m ++ l) =
      match List.lookup a m with
      | some v => some v
      | none => List.lookup a l := by
  induction m with
  | nil => rfl
  | cons p t ih =>
    obtain ⟨k, v⟩ := p
    by_cases hak : a = k
    · subst hak
      rw [List.cons_append, lookup_cons_eq, lookup_cons_eq]
    · rw [List.cons_append, lookup_cons_ne _ _ hak,
        lookup_cons_ne _ _ hak, ih]

theorem lookup_map_update {α : Type} (m : List (String × α)) (k : String)
    (v : α) (hmem : k ∈ m.map (fun p => p.1)) :
    List.lookup k (m.map (fun p => if p.1 = k then (k, v) else p)) =
      some v := by
  induction m with
  | nil => simp at hmem
  | cons p t ih =>
    obtain ⟨k', v'⟩ := p
    rw [List.map_cons]
    by_cases hkk : k' = k
    · rw [show (if (k', v').1 = k then (k, v) else (k', v')) = (k, v)
        from if_pos hkk]
      exact lookup_cons_eq _ _ _
    · have hk : ¬ k = k' := fun hc => hkk hc.symm
      rw [show (if (k', v').1 = k then (k, v) else (k', v')) = (k', v')
        from if_neg hkk]
      rw [lookup_cons_ne _ _ hk]
      apply ih
      simp only [List.map_cons, List.mem_cons] at hmem
      rcases hmem with hc | hmem
      · exact absurd hc.symm hkk
      · exact hmem

theorem lookup_map_update_ne {α : Type} (m : List (String × α))
    (k : String) (v : α) (a : String) (hak : a ≠ k) :
    List.lookup a (m.map (fun p => if p.1 = k then (k, v) else p)) =
      List.lookup a m := by
  induction m with
  | nil => rfl
  | cons p t ih =>
    obtain ⟨k', v'⟩ := p
    rw [List.map_cons]
    by_cases hkk : k' = k
    · rw [show (if (k', v').1 = k then (k, v) else (k', v')) = (k, v)
        from if_pos hkk]
      rw [lookup_cons_ne _ _ hak,
        lookup_cons_ne _ _ (show a ≠ k' from hkk ▸ hak)]
      exact ih
    · rw [show (if (k', v').1 = k then (k, v) else (k', v')) = (k', v')
        from if_neg hkk]
      by_cases hak' : a = k'
      · subst hak'
        rw [lookup_cons_eq, lookup_cons_eq]
      · rw [lookup_cons_ne _ _ hak', lookup_cons_ne _ _ hak']
        exact ih

theorem any_key_iff {α : Type} (m : List (String × α)) (k : String) :
    (m.any fun p => decide (p.1 = k)) = true ↔
      k ∈ m.map (fun p => p.1) := by
  simp only [List.any_eq_true, decide_eq_true_eq, List.mem_map]

theorem lookup_dinsert_self {α : Type} (m : List (String × α)) (k : String)
    (v : α) : List.lookup k (dinsert m k v) = some v := by
  unfold dinsert
  by_cases hk : k ∈ m.map (fun p => p.1)
  · rw [if_pos ((any_key_iff m k).mpr hk)]
    exact lookup_map_update m k v hk
  · rw [if_neg (fun hc => hk ((any_key_iff m k).mp hc)), lookup_append,
      lookup_eq_none_of_not_mem_keys m k hk]
    exact lookup_cons_eq _ _ _

theorem lookup_dinsert_ne {α : Type} (m : List (String × α)) (k : String)
    (v : α) (a : String) (hak : a ≠ k) :
    List.lookup a (dinsert m k v) = List.lookup a m := by
  unfold dinsert
  by_cases hk : (m.any fun p => decide (p.1 = k)) = true
  · rw [if_pos hk]
    exact lookup_map_update_ne m k v a hak
  · rw [if_neg hk, lookup_append]
    rcases hl : List.lookup a m with _ | w
    · rw [lookup_cons_ne _ _ hak]
      rfl
    · rfl

theorem lookup_foldl_dinsert_not_mem (L : List String) (u : String)
    (m : List (String × String)) (a : String) (ha : a ∉ L) :
    List.lookup a (L.foldl (fun m' x => dinsert m' x u) m) =
      List.lookup a m := by
  induction L generalizing m with
  | nil => rfl
  | cons x t ih =>
    simp only [List.mem_cons, not_or] at ha
    rw [List.foldl_cons, ih _ ha.2, lookup_dinsert_ne _ _ _ _ ha.1]

theorem lookup_foldl_dinsert_mem (L : List String) (u : String)
    (m : List (String × String)) (a : String) (ha : a ∈ L) :
    List.lookup a (L.foldl (fun m' x => dinsert m' x u) m) = some u := by
  induction L generalizing m with
  | nil => cases ha
  | cons x t ih =>
    rw [List.foldl_cons]
    by_cases hat : a ∈ t
    · exact ih _ hat
    · have hax : a = x := by
        rcases List.mem_cons.mp ha with h | h
        · exact h
        · exact absurd h hat
      subst hax
      rw [lookup_foldl_dinsert_not_mem t u _ a hat, lookup_dinsert_self]

/-- One step of the `_hero_alias_map` construction loop, for one hero:
insert all of its aliases (as stored), then its lowercased name. -/
def aliasStep (m : List (String × String)) (h : Hero) :
    List (String × String) :=
  dinsert (h.aliases.foldl (fun m' a => dinsert m' a h.name) m)
    (strLower h.name) h.name

theorem aliasStep_lookup_set (m : List (String × String)) (g : Hero)
    (a : String) (hkey : a ∈ g.aliases ∨ a = strLower g.name) :
    List.lookup a (aliasStep m g) = some g.name := by
  unfold aliasStep
  by_cases han : a = strLower g.name
  · subst han
    exact lookup_dinsert_self _ _ _
  · rcases hkey with hmem | hc
    · rw [lookup_dinsert_ne _ _ _ _ han]
      exact lookup_foldl_dinsert_mem _ _ _ _ hmem
    · exact absurd hc han

theorem aliasStep_lookup_preserve (m : List (String × String)) (g : Hero)
    (a : String) (hna : a ∉ g.aliases) (hnn : a ≠ strLower g.name) :
    List.lookup a (aliasStep m g) = List.lookup a m := by
  unfold aliasStep
  rw [lookup_dinsert_ne _ _ _ _ hnn]
  exact lookup_foldl_dinsert_not_mem _ _ _ _ hna

theorem alias_fold_preserve (l : List Hero) (m : List (String × String))
    (a : String) (hp : ∀ g ∈ l, a ∉ g.aliases ∧ a ≠ strLower g.name) :
    List.lookup a (l.foldl aliasStep m) = List.lookup a m := by
  induction l generalizing m with
  | nil => rfl
  | cons g t ih =>
    rw [List.foldl_cons, ih _ (fun g' hg' => hp g' (List.mem_cons_of_mem _ hg')),
      aliasStep_lookup_preserve m g a (hp g (List.mem_cons_self _ _)).1
        (hp g (List.mem_cons_self _ _)).2]

theorem alias_fold_lookup (l : List Hero) (H : Hero) (a : String)
    (m : List (String × String)) (hmem : H ∈ l)
    (hkey : a ∈ H.aliases ∨ a = strLower H.name)
    (huniq : ∀ g ∈ l, g = H ∨ (a ∉ g.aliases ∧ a ≠ strLower g.name)) :
    List.lookup a (l.foldl aliasStep m) = some H.name := by
  induction l generalizing m with
  | nil => cases hmem
  | cons g t ih =>
    rw [List.foldl_cons]
    by_cases hHt : H ∈ t
    · exact ih _ hHt (fun g' hg' => huniq g' (List.mem_cons_of_mem _ hg'))
    · have hgH : g = H := by
        rcases List.mem_cons.mp hmem with h | h
        · exact h.symm
        · exact absurd h hHt
      subst hgH
      have hpres : ∀ g' ∈ t, a ∉ g'.aliases ∧ a ≠ strLower g'.name := by
        intro g' hg'
        rcases huniq g' (List.mem_cons_of_mem _ hg') with rfl | h
        · exact absurd hg' hHt
        · exact h
      rw [alias_fold_preserve t _ a hpres]
      exact aliasStep_lookup_set m g a hkey

theorem dinsert_fresh {α : Type} (m : List (String × α)) (k : String)
    (v : α) (h : k ∉ m.map (fun p => p.1)) : dinsert m k v = m ++ [(k, v)] := by
  unfold dinsert
  rw [if_neg (fun hc => h ((any_key_iff m k).mp hc))]

theorem build_hero_data_go (l : List Hero) (acc : List (String × Hero))
    (hfresh : ∀ h ∈ l, h.name ∉ acc.map (fun p => p.1))
    (hnd : (l.map Hero.name).Nodup) :
    l.foldl (fun m h => dinsert m h.name h) acc =
      acc ++ l.map (fun h => (h.name, h)) := by
  induction l generalizing acc with
  | nil => simp
  | cons g t ih =>
    rw [List.foldl_cons,
      dinsert_fresh _ _ _ (hfresh g (List.mem_cons_self _ _))]
    rw [ih (acc ++ [(g.name, g)]) ?_ (List.nodup_cons.mp hnd).2]
    · simp
    · intro h ht
      simp only [List.map_append, List.mem_append]
      rintro (hin | hin)
      · exact hfresh h (List.mem_cons_of_mem _ ht) hin
      · simp only [List.map_cons, List.map_nil, List.mem_singleton] at hin
        exact (List.nodup_cons.mp hnd).1
          (hin ▸ List.mem_map.mpr ⟨h, ht, rfl⟩)

theorem build_hero_data_eq (heroes : List Hero)
    (hnd : (heroes.map Hero.name).Nodup) :
    build_hero_data heroes = heroes.map (fun h => (h.name, h)) := by
  unfold build_hero_data
  simpa using build_hero_data_go heroes [] (by simp) hnd

def hUpper : Hero := ⟨"X", ["AM"], [], [], []⟩

/-- C2 counterexample: an alias stored with an uppercase letter never
resolves — not even typed exactly as stored — because the map key keeps
the original casing while the input is lowercased before lookup. -/
theorem C2_counterexample :
    "AM" ∈ hUpper.aliases ∧
    resolve_hero_name (mkEngine [hUpper]) "AM" = none ∧
    resolve_hero_name (mkEngine [hUpper]) "am" = none :=
  ⟨by decide, by decide, by decide⟩

/-- C2 amended: resolution lowercases only the INPUT.  A string `s`
resolves to hero H's canonical name whenever `lower(s)` equals one of H's
aliases exactly as stored, or H's lowercased name, and no other hero
registers the same key (resolution is case-insensitive in the input only;
an alias stored with an uppercase letter is unreachable); any string whose
lowercase form is not a registered key resolves to none. -/
theorem C2_alias_resolution (heroes : List Hero) (H : Hero) (s : String)
    (hnames : (heroes.map Hero.name).Nodup)
    (hmem : H ∈ heroes)
    (hkey : strLower s ∈ H.aliases ∨ strLower s = strLower H.name)
    (huniq : ∀ g ∈ heroes, g = H ∨
      (strLower s ∉ g.aliases ∧ strLower s ≠ strLower g.name)) :
    resolve_hero_name (mkEngine heroes) s = some H.name ∧
    (∀ t : String, strLower t = strLower s →
      resolve_hero_name (mkEngine heroes) t = some H.name) ∧
    (∀ u : String,
      strLower u ∉ (mkEngine heroes).hero_alias_map.map (fun p => p.1) →
      resolve_hero_name (mkEngine heroes) u = none) := by
  have hmain : resolve_hero_name (mkEngine heroes) s = some H.name := by
    unfold resolve_hero_name
    show List.lookup (strLower s)
      (build_alias_map (build_hero_data heroes)) = some H.name
    rw [build_hero_data_eq heroes hnames]
    unfold build_alias_map
    rw [List.foldl_map]
    exact alias_fold_lookup heroes H (strLower s) [] hmem hkey huniq
  refine ⟨hmain, ?_, ?_⟩
  · intro t ht
    unfold resolve_hero_name at hmain ⊢
    rw [ht]
    exact hmain
  · intro u hu
    unfold resolve_hero_name
    exact lookup_eq_none_of_not_mem_keys _ _ hu

theorem C2_witness :
    resolve_hero_name (mkEngine [hA, hB, hC]) "TRIP" = some "C" :=
  (C2_alias_resolution [hA, hB, hC] hC "TRIP" (by decide) (by decide)
    (by decide) (by decide)).1
